import Mathlib

/-
Shallow embedding of src/r09_advanced_quantization.py (MobileNet-in-FPGA).

Real-valued numpy arithmetic is modelled over ℚ; numpy's round (which rounds
halves to even) is modelled by roundHalfEven; the float constant 1e-8 is the
rational eps below.  Tensors carry their number of dimensions (ndim), since
the code branches on len(w.shape).
-/

namespace MobileNetQuant

/-- The literal 1e-8 used by the quantizers. -/
def eps : ℚ := 1 / 100000000

/-- numpy rounding: nearest integer, halves to even (np.round). -/
def roundHalfEven (q : ℚ) : ℤ :=
  if q - ⌊q⌋ < 1/2 then ⌊q⌋
  else if 1/2 < q - ⌊q⌋ then ⌊q⌋ + 1
  else if ⌊q⌋ % 2 = 0 then ⌊q⌋ else ⌊q⌋ + 1

/-- numpy's ndarray.min over the (flattened, nonempty in practice) data. -/
def listMin : List ℚ → ℚ
  | [] => 0
  | x :: xs => xs.foldl min x

/-- numpy's ndarray.max over the (flattened, nonempty in practice) data. -/
def listMax : List ℚ → ℚ
  | [] => 0
  | x :: xs => xs.foldl max x

/-- A numpy array as seen by the quantizer: its number of dimensions
(len(w.shape), the only shape information the code branches on) and its
flattened data. -/
structure NpTensor where
  ndim : ℕ
  data : List ℚ
deriving DecidableEq

/-- Lines 107-108: w_min, w_max and scale = (2 ** bits - 1) / (w_max - w_min + 1e-8). -/
def quantScale (xs : List ℚ) (bits : ℕ) : ℚ :=
  ((2 : ℚ) ^ bits - 1) / (listMax xs - listMin xs + eps)

/-- Line 111: w_quant = np.round((w - w_min) * scale).astype(np.int32). -/
def quantCodes (xs : List ℚ) (bits : ℕ) : List ℤ :=
  xs.map (fun x => roundHalfEven ((x - listMin xs) * quantScale xs bits))

/-- Line 114: w_dequant = (w_quant / scale + w_min).astype(np.float32).  The
arithmetic is modelled exactly over ℚ; the final float32 cast is a rounding
to ≈ 7 significant digits that the model omits, so theorems comparing a
dequantized tensor against another value only ever rely on differences far
above that resolution (or on values such as 0 and w_min that the float
program also produces exactly), never on the residual ε = 1e-8 that float32
absorbs. -/
def quantDequant (xs : List ℚ) (bits : ℕ) : List ℚ :=
  (quantCodes xs bits).map (fun (z : ℤ) => (z : ℚ) / quantScale xs bits + listMin xs)

/-- Lines 98-117, LayerSensitivityAnalyzer._quantize_weights: every tensor of
the layer's weight list is quantize-dequantized, except zero-dimensional
(scalar) tensors, which are appended unchanged (the branch
if len(w.shape) == 0). -/
def quantize_weights (ws : List NpTensor) (bits : ℕ) : List NpTensor :=
  ws.map (fun w => if w.ndim = 0 then w else ⟨w.ndim, quantDequant w.data bits⟩)

/-- The search loop of lines 85-88: starting at bit b0 and scanning n
consecutive bit-widths, return the first b with threshold ≤ curve b, or the
default (bit_range[1]) if none qualifies. -/
def selectGo (curve : ℕ → ℚ) (threshold : ℚ) (dflt : ℕ) : ℕ → ℕ → ℕ
  | 0, _ => dflt
  | n + 1, b => if threshold ≤ curve b then b else selectGo curve threshold dflt n (b + 1)

/-- Lines 80-88 of analyze_layer: optimal_bits starts as bit_range[1] and
becomes the first bits in range(bit_range[0], bit_range[1] + 1) whose accuracy
is at least baseline_accuracy * 0.99 (break on first hit). -/
def selectOptimalBits (curve : ℕ → ℚ) (bmin bmax : ℕ) : ℕ :=
  selectGo curve (curve bmax * (99 / 100)) bmax (bmax + 1 - bmin) bmin

/-- Python's range(bmin, bmax + 1) as a list. -/
def bitRangeList (bmin bmax : ℕ) : List ℕ :=
  (List.range (bmax + 1 - bmin)).map (fun i => bmin + i)

/-- Dictionary access sensitivity_curve[bits] (0 if absent; the code only
accesses keys it has written). -/
def curveLookup (curve : List (ℕ × ℚ)) (b : ℕ) : ℚ :=
  ((curve.find? (fun p => p.1 == b)).map (fun p => p.2)).getD 0

/-- The sweep loop of lines 64-75: for each bit-width, quantize the original
weights, install them on the layer (set_weights), and evaluate.  The first
component is the measured curve, or the exception raised by an evaluation;
the second component is the layer's weights as left behind by the loop (the
last ones installed).  An exception escapes immediately, exactly as in
Python, so the weights current at that moment stay installed. -/
def sweepBits (ev : List NpTensor → Except String ℚ) (w0 : List NpTensor)
    (cur : List NpTensor) : List ℕ → Except String (List (ℕ × ℚ)) × List NpTensor
  | [] => (Except.ok [], cur)
  | b :: rest =>
      let wq := quantize_weights w0 b
      match ev wq with
      | Except.error e => (Except.error e, wq)
      | Except.ok a =>
          match sweepBits ev w0 wq rest with
          | (Except.ok curve, wfin) => (Except.ok ((b, a) :: curve), wfin)
          | (Except.error e, wfin) => (Except.error e, wfin)

/-- Lines 49-96, LayerSensitivityAnalyzer.analyze_layer.  The model to
evaluate is a function ev from the installed layer weights to the measured
accuracy (or a raised exception).  Returns the method's result
(optimal_bits, sensitivity_curve) — or the escaping exception — together
with the layer's weights as observed by the caller afterwards.  The
restoring set_weights(original_weights) of line 78 is straight-line code
after the loop: it runs only when no evaluation raised. -/
def analyze_layer (ev : List NpTensor → Except String ℚ) (w0 : List NpTensor)
    (bmin bmax : ℕ) : Except String (ℕ × List (ℕ × ℚ)) × List NpTensor :=
  match sweepBits ev w0 w0 (bitRangeList bmin bmax) with
  | (Except.error e, wfin) => (Except.error e, wfin)
  | (Except.ok curve, _) =>
      (Except.ok (selectOptimalBits (curveLookup curve) bmin bmax, curve), w0)

/-- Lines 127-136, analyze_all_layers: a plain for-loop over the
convolutional layers calling analyze_layer (default bit_range, i.e. 4..16)
on each; an exception raised inside one layer's analysis escapes the loop,
as in Python.  On full success it returns the sensitivity map (layer name,
(optimal_bits, sensitivity_curve)). -/
def analyze_all_layers (ev : String → List NpTensor → Except String ℚ) :
    List (String × List NpTensor) → Except String (List (String × (ℕ × List (ℕ × ℚ))))
  | [] => Except.ok []
  | (name, w) :: rest =>
      match (analyze_layer (ev name) w 4 16).1 with
      | Except.error e => Except.error e
      | Except.ok r =>
          match analyze_all_layers ev rest with
          | Except.error e => Except.error e
          | Except.ok m => Except.ok ((name, r) :: m)

/-- Mean-squared error between two equally long tensors (the metric of the
monotone-error claim). -/
def mse (xs ys : List ℚ) : ℚ :=
  (((xs.zip ys).map (fun p => (p.1 - p.2) ^ 2)).sum) / (xs.length : ℚ)

/-- Line 222: index_bits = int(np.ceil(np.log2(num_clusters))); for k ≥ 1
this is the ceiling of log2 k, i.e. Nat.clog 2 k. -/
def indexBits (k : ℕ) : ℕ := Nat.clog 2 k

/-- Lines 221-225 of quantize_layer_weights: original_size = size * 32,
compressed_size = size * index_bits + k * 32, and their quotient. -/
def compressionRatio (size k : ℕ) : ℚ :=
  ((size * 32 : ℕ) : ℚ) / ((size * indexBits k + k * 32 : ℕ) : ℚ)

/-- The mutable state of WeightClusteringQuantizer: self.codebooks and
self.indices, dictionaries keyed by layer name. -/
structure QState where
  codebooks : List (String × List ℚ)
  indices : List (String × List ℕ)
deriving DecidableEq

/-- Lines 189-231, WeightClusteringQuantizer.quantize_layer_weights.  The
external sklearn KMeans fit_predict / cluster_centers_ pair is the parameter
km (flattened weights and cluster count to labels and centroids, or a raised
library exception).  The method body performs no validation of its own: it
calls km directly, and only after it returns does it store the codebook and
indices (lines 217-218) and return them.  A raised exception escapes with
the state unchanged. -/
def quantize_layer_weights (km : List ℚ → ℕ → Except String (List ℕ × List ℚ))
    (k : ℕ) (st : QState) (w : List ℚ) (name : String) :
    Except String (List ℕ × List ℚ) × QState :=
  match km w k with
  | Except.error e => (Except.error e, st)
  | Except.ok (labels, centroids) =>
      (Except.ok (labels, centroids),
       ⟨(name, centroids) :: st.codebooks, (name, labels) :: st.indices⟩)

/-- Lines 262-284, logarithmic_quantize_activation, with the real log2
abstracted as the parameter lg (applied only to arguments of the form x + 1
with x ≥ 0).  Line 274: activation = np.maximum(activation, 0); line 277:
elementwise lg (x + 1); lines 280-281: max_log = lg (activation.max() + 1)
and scale = (2 ** out_bits - 1) / (max_log + 1e-8); line 282:
np.round(log_activation * scale).astype(np.uint8) — the uint8 cast reduces
each rounded value modulo 256. -/
def logarithmic_quantize_activation (lg : ℚ → ℚ) (xs : List ℚ) (out_bits : ℕ) : List ℤ :=
  let act := xs.map (fun x => max x 0)
  let scale := ((2 : ℚ) ^ out_bits - 1) / (lg (listMax act + 1) + eps)
  act.map (fun x => (roundHalfEven (lg (x + 1) * scale)).emod 256)

/-- Modelled from the spec's words for comparison with the code: the same
pipeline but with the final code clip(round(t * scale), 0, 2^outBits − 1)
instead of the uint8 cast. -/
def logQuantizeClipForm (lg : ℚ → ℚ) (xs : List ℚ) (out_bits : ℕ) : List ℤ :=
  let act := xs.map (fun x => max x 0)
  let scale := ((2 : ℚ) ^ out_bits - 1) / (lg (listMax act + 1) + eps)
  act.map (fun x => max 0 (min (roundHalfEven (lg (x + 1) * scale)) (2 ^ out_bits - 1)))

/-- Fuel-driven floor of log2 on ℕ (fuel first); with fuel ≥ n it computes
Nat.log 2 n by structural recursion, so closed instances evaluate. -/
def natLog2Go : ℕ → ℕ → ℕ
  | 0, _ => 0
  | fuel + 1, n => if n ≤ 1 then 0 else natLog2Go fuel (n / 2) + 1

/-- A computable stand-in for log2 that agrees with the exact real log2 on
every power of two (in particular at 1 and 4, the only points where the
counterexample below applies it). -/
def ratLog2Floor (q : ℚ) : ℚ :=
  (natLog2Go ⌊q⌋.toNat ⌊q⌋.toNat : ℚ)

/-- Line 320: the classification if 'dw' in layer_name (substring test). -/
def charsMatchAt : List Char → List Char → Bool
  | [], _ => true
  | _ :: _, [] => false
  | a :: as, b :: bs => a = b && charsMatchAt as bs

/-- Substring containment on character lists (Python's in on str). -/
def hasSubstring (pat : List Char) : List Char → Bool
  | [] => pat.isEmpty
  | c :: rest => charsMatchAt pat (c :: rest) || hasSubstring pat rest

/-- A layer is treated as depthwise iff 'dw' occurs in its name (line 320). -/
def isDepthwiseName (name : String) : Bool :=
  hasSubstring "dw".toList name.toList

/-- Lines 303-341, generate_mixed_precision_config restricted to the config
dictionary it builds and returns (the file it also writes is I/O): for each
layer its optimal bits n become {weight: n, activation: max n 8} on the
depthwise branch and {weight: n, activation: n + 1} on the pointwise
branch.  The sensitivity map is the association list (layer name,
optimal_bits), the result pairs each name with (weight, activation). -/
def generate_mixed_precision_config (m : List (String × ℕ)) : List (String × (ℕ × ℕ)) :=
  m.map (fun p =>
    (p.1, if isDepthwiseName p.1 then (p.2, max p.2 8) else (p.2, p.2 + 1)))

/-! Theorems -/

theorem roundHalfEven_le (q : ℚ) : (roundHalfEven q : ℚ) ≤ q + 1/2 := by
  unfold roundHalfEven
  have hf1 : (⌊q⌋ : ℚ) ≤ q := Int.floor_le q
  have hf2 : q < ⌊q⌋ + 1 := Int.lt_floor_add_one q
  split_ifs <;> push_cast <;> linarith

theorem le_roundHalfEven (q : ℚ) : q - 1/2 ≤ (roundHalfEven q : ℚ) := by
  unfold roundHalfEven
  have hf1 : (⌊q⌋ : ℚ) ≤ q := Int.floor_le q
  have hf2 : q < ⌊q⌋ + 1 := Int.lt_floor_add_one q
  split_ifs <;> push_cast <;> linarith

theorem abs_roundHalfEven_sub_le (q : ℚ) : |(roundHalfEven q : ℚ) - q| ≤ 1/2 := by
  have h1 := roundHalfEven_le q
  have h2 := le_roundHalfEven q
  rw [abs_le]
  constructor <;> linarith

theorem roundHalfEven_eq_down {q : ℚ} {n : ℤ} (h1 : (n : ℚ) ≤ q) (h2 : q < n + 1/2) :
    roundHalfEven q = n := by
  have hfl : ⌊q⌋ = n := by
    rw [Int.floor_eq_iff]
    constructor
    · exact h1
    · linarith
  unfold roundHalfEven
  rw [hfl, if_pos (by linarith)]

theorem roundHalfEven_eq_up {q : ℚ} {n : ℤ} (h1 : (n : ℚ) - 1/2 < q) (h2 : q ≤ n) :
    roundHalfEven q = n := by
  rcases eq_or_lt_of_le h2 with h | h
  · have hfl : ⌊q⌋ = n := by rw [h]; exact Int.floor_intCast n
    unfold roundHalfEven
    rw [hfl, if_pos (by rw [h]; norm_num)]
  · have hfl : ⌊q⌋ = n - 1 := by
      rw [Int.floor_eq_iff]
      constructor
      · push_cast; linarith
      · push_cast; linarith
    unfold roundHalfEven
    rw [hfl]
    rw [if_neg (by push_cast; linarith), if_pos (by push_cast; linarith)]
    omega

theorem foldl_min_le_init (l : List ℚ) : ∀ a : ℚ, l.foldl min a ≤ a := by
  induction l with
  | nil => intro a; exact le_refl a
  | cons b t ih =>
      intro a
      calc (b :: t).foldl min a = t.foldl min (min a b) := rfl
        _ ≤ min a b := ih (min a b)
        _ ≤ a := min_le_left a b

theorem foldl_min_le_mem (l : List ℚ) : ∀ a : ℚ, ∀ x ∈ l, l.foldl min a ≤ x := by
  induction l with
  | nil => intro a x hx; cases hx
  | cons b t ih =>
      intro a x hx
      rcases List.mem_cons.mp hx with h | h
      · calc (b :: t).foldl min a = t.foldl min (min a b) := rfl
          _ ≤ min a b := foldl_min_le_init t (min a b)
          _ ≤ b := min_le_right a b
          _ = x := h.symm
      · exact ih (min a b) x h

theorem init_le_foldl_max (l : List ℚ) : ∀ a : ℚ, a ≤ l.foldl max a := by
  induction l with
  | nil => intro a; exact le_refl a
  | cons b t ih =>
      intro a
      calc a ≤ max a b := le_max_left a b
        _ ≤ t.foldl max (max a b) := ih (max a b)
        _ = (b :: t).foldl max a := rfl

theorem mem_le_foldl_max (l : List ℚ) : ∀ a : ℚ, ∀ x ∈ l, x ≤ l.foldl max a := by
  induction l with
  | nil => intro a x hx; cases hx
  | cons b t ih =>
      intro a x hx
      rcases List.mem_cons.mp hx with h | h
      · calc x = b := h
          _ ≤ max a b := le_max_right a b
          _ ≤ t.foldl max (max a b) := init_le_foldl_max t (max a b)
          _ = (b :: t).foldl max a := rfl
      · exact ih (max a b) x h

theorem listMin_le_of_mem {l : List ℚ} {x : ℚ} (hx : x ∈ l) : listMin l ≤ x := by
  cases l with
  | nil => cases hx
  | cons a t =>
      rcases List.mem_cons.mp hx with h | h
      · subst h; exact foldl_min_le_init t x
      · exact foldl_min_le_mem t a x h

theorem le_listMax_of_mem {l : List ℚ} {x : ℚ} (hx : x ∈ l) : x ≤ listMax l := by
  cases l with
  | nil => cases hx
  | cons a t =>
      rcases List.mem_cons.mp hx with h | h
      · subst h; exact init_le_foldl_max t x
      · exact mem_le_foldl_max t a x h

theorem listMin_le_listMax {l : List ℚ} (h : l ≠ []) : listMin l ≤ listMax l := by
  cases l with
  | nil => exact absurd rfl h
  | cons a t =>
      exact le_trans (listMin_le_of_mem (List.mem_cons_self a t))
        (le_listMax_of_mem (List.mem_cons_self a t))

theorem selectGo_cases (curve : ℕ → ℚ) (thr : ℚ) (d : ℕ) :
    ∀ (n b0 : ℕ),
      ((∀ i, i < n → ¬ thr ≤ curve (b0 + i)) ∧ selectGo curve thr d n b0 = d) ∨
      (b0 ≤ selectGo curve thr d n b0 ∧ selectGo curve thr d n b0 < b0 + n ∧
        thr ≤ curve (selectGo curve thr d n b0) ∧
        ∀ b, b0 ≤ b → b < selectGo curve thr d n b0 → ¬ thr ≤ curve b) := by
  intro n
  induction n with
  | zero =>
      intro b0
      left
      exact ⟨fun i hi => absurd hi (Nat.not_lt_zero i), rfl⟩
  | succ n ih =>
      intro b0
      by_cases h : thr ≤ curve b0
      · right
        have hg : selectGo curve thr d (n + 1) b0 = b0 := by
          rw [selectGo, if_pos h]
        rw [hg]
        exact ⟨le_refl b0, by omega, h, fun b hb1 hb2 => absurd hb2 (by omega)⟩
      · have hg : selectGo curve thr d (n + 1) b0 = selectGo curve thr d n (b0 + 1) := by
          rw [selectGo, if_neg h]
        rcases ih (b0 + 1) with ⟨hall, heq⟩ | ⟨h1, h2, h3, h4⟩
        · left
          refine ⟨?_, by rw [hg]; exact heq⟩
          intro i hi
          cases i with
          | zero => simpa using h
          | succ j =>
              have hj := hall j (by omega)
              have hrw : b0 + 1 + j = b0 + (j + 1) := by omega
              rw [hrw] at hj
              exact hj
        · right
          rw [hg]
          refine ⟨by omega, by omega, h3, ?_⟩
          intro b hb1 hb2
          rcases Nat.eq_or_lt_of_le hb1 with hb | hb
          · rw [← hb]; exact h
          · exact h4 b (by omega) hb2

/-- C2: over any bit range with bMin ≤ bMax and any measured sensitivity
curve, analyze_layer's optimal_bits (the selection of lines 80-88) stays in
[bMin, bMax]; it is a lower bound of every candidate meeting the 0.99 ×
baseline threshold and itself meets the threshold whenever some candidate
does (hence it is the minimum such candidate); and when no candidate meets
the threshold it falls back to bMax. -/
theorem selectOptimalBits_is_minimal_candidate (curve : ℕ → ℚ) (bmin bmax : ℕ)
    (hle : bmin ≤ bmax) :
    (bmin ≤ selectOptimalBits curve bmin bmax ∧ selectOptimalBits curve bmin bmax ≤ bmax) ∧
    (∀ b, bmin ≤ b → b ≤ bmax → curve bmax * (99/100) ≤ curve b →
      selectOptimalBits curve bmin bmax ≤ b ∧
      curve bmax * (99/100) ≤ curve (selectOptimalBits curve bmin bmax)) ∧
    ((∀ b, bmin ≤ b → b ≤ bmax → ¬ curve bmax * (99/100) ≤ curve b) →
      selectOptimalBits curve bmin bmax = bmax) := by
  have hdef : selectOptimalBits curve bmin bmax =
      selectGo curve (curve bmax * (99/100)) bmax (bmax + 1 - bmin) bmin := rfl
  rcases selectGo_cases curve (curve bmax * (99/100)) bmax (bmax + 1 - bmin) bmin with
    ⟨hall, heq⟩ | ⟨h1, h2, h3, h4⟩
  · rw [hdef, heq]
    refine ⟨⟨hle, le_refl bmax⟩, ?_, fun _ => rfl⟩
    intro b hb1 hb2 hb3
    have hcontra := hall (b - bmin) (by omega)
    rw [show bmin + (b - bmin) = b by omega] at hcontra
    exact absurd hb3 hcontra
  · rw [hdef]
    refine ⟨⟨h1, by omega⟩, ?_, ?_⟩
    · intro b hb1 hb2 hb3
      constructor
      · by_contra hc
        exact h4 b hb1 (by omega) hb3
      · exact h3
    · intro hnone
      exact absurd h3 (hnone _ h1 (by omega))

/-- C2 witness: a concrete application on the default range (4, 16) with a
flat curve. -/
theorem selectOptimalBits_is_minimal_candidate_witness :
    (4 ≤ 16) ∧
    ((4 ≤ selectOptimalBits (fun _ => 1) 4 16 ∧ selectOptimalBits (fun _ => 1) 4 16 ≤ 16) ∧
    (∀ b, 4 ≤ b → b ≤ 16 → (fun _ => (1:ℚ)) 16 * (99/100) ≤ (fun _ => (1:ℚ)) b →
      selectOptimalBits (fun _ => 1) 4 16 ≤ b ∧
      (fun _ => (1:ℚ)) 16 * (99/100) ≤ (fun _ => (1:ℚ)) (selectOptimalBits (fun _ => 1) 4 16)) ∧
    ((∀ b, 4 ≤ b → b ≤ 16 → ¬ (fun _ => (1:ℚ)) 16 * (99/100) ≤ (fun _ => (1:ℚ)) b) →
      selectOptimalBits (fun _ => 1) 4 16 = 16)) :=
  ⟨by omega, selectOptimalBits_is_minimal_candidate (fun _ => 1) 4 16 (by omega)⟩

/-- C1 (amended): the restoring set_weights(original_weights) of line 78 is
executed on normal completion of the sweep, so whenever analyze_layer
returns without an exception the caller observes the original weights. -/
theorem analyze_layer_restores_on_success (ev : List NpTensor → Except String ℚ)
    (w0 : List NpTensor) (bmin bmax : ℕ)
    (h : (analyze_layer ev w0 bmin bmax).1.isOk = true) :
    (analyze_layer ev w0 bmin bmax).2 = w0 := by
  unfold analyze_layer at h ⊢
  rcases hsw : sweepBits ev w0 w0 (bitRangeList bmin bmax) with ⟨res, wfin⟩
  cases res with
  | error e =>
      rw [hsw] at h
      simp [Except.isOk, Except.toBool] at h
  | ok curve => rfl

/-- C1 witness: a one-bit sweep whose evaluation succeeds; the caller gets
the original weights back. -/
theorem analyze_layer_restores_on_success_witness :
    (analyze_layer (fun _ => Except.ok 1) [⟨1, [0, 1]⟩] 4 4).1.isOk = true ∧
    (analyze_layer (fun _ => Except.ok 1) [⟨1, [0, 1]⟩] 4 4).2 = [⟨1, [0, 1]⟩] :=
  ⟨rfl, analyze_layer_restores_on_success (fun _ => Except.ok 1) [⟨1, [0, 1]⟩] 4 4 rfl⟩

/-- C1 counterexample: there is no try/finally around the sweep of lines
64-78, so when the first evaluation raises, analyze_layer propagates the
exception and the layer keeps the 4-bit quantized weights: the caller does
not observe the pre-call originals.  The original weight tensor [0, 1, 2]
(ndim 1) has become [0, ≈0.9333, ≈2]: its middle element is dequantized to
7·(2 + 1e-8)/15 (the float program computes 0.93333334), a change of about
1/15 — far above float32 resolution — so the inequality below also holds
of the real program. -/
theorem analyze_layer_error_leaves_quantized :
    (analyze_layer (fun _ => Except.error "boom") [⟨1, [0, 1, 2]⟩] 4 16).1 =
      Except.error "boom" ∧
    (analyze_layer (fun _ => Except.error "boom") [⟨1, [0, 1, 2]⟩] 4 16).2 ≠
      [⟨1, [0, 1, 2]⟩] := by
  constructor
  · rfl
  · have hred : (analyze_layer (fun _ => Except.error "boom") [⟨1, [0, 1, 2]⟩] 4 16).2 =
        quantize_weights [⟨1, [0, 1, 2]⟩] 4 := rfl
    have heval : quantize_weights [⟨1, [0, 1, 2]⟩] 4 =
        [⟨1, [0, 466666669/500000000, 200000001/100000000]⟩] := by
      norm_num [quantize_weights, quantDequant, quantCodes, quantScale, listMin, listMax,
        min_def, max_def, eps, roundHalfEven, Int.fract, -Int.self_sub_floor]
    rw [hred, heval]
    intro hc
    simp only [List.cons.injEq, NpTensor.mk.injEq, and_true, true_and] at hc
    norm_num at hc

/-- C3 (amended): analyze_all_layers is a plain loop without a per-layer
try/except, so an exception inside one layer's analysis aborts the whole
method: whatever layers remain, the exception propagates to the caller. -/
theorem analyze_all_layers_error_propagates (ev : String → List NpTensor → Except String ℚ)
    (name : String) (w : List NpTensor) (rest : List (String × List NpTensor)) (e : String)
    (h : (analyze_layer (ev name) w 4 16).1 = Except.error e) :
    analyze_all_layers ev ((name, w) :: rest) = Except.error e := by
  unfold analyze_all_layers
  rw [h]

/-- C3 witness: the first layer's evaluation raises; the whole sweep aborts
regardless of the second layer. -/
theorem analyze_all_layers_error_propagates_witness :
    (analyze_layer ((fun _ _ => Except.error "boom") "a") [⟨1, [0, 1]⟩] 4 16).1 =
      Except.error "boom" ∧
    analyze_all_layers (fun _ _ => Except.error "boom")
      [("a", [⟨1, [0, 1]⟩]), ("b", [⟨1, [0, 1]⟩])] = Except.error "boom" :=
  ⟨rfl, analyze_all_layers_error_propagates (fun _ _ => Except.error "boom")
    "a" [⟨1, [0, 1]⟩] [("b", [⟨1, [0, 1]⟩])] "boom" rfl⟩

/-- C3 counterexample: layer a's analysis raises while layer b's would
succeed; the method does not return a partial sensitivity map for b — it
returns nothing at all (the exception escapes), refuting the claim that
remaining layers still run and partial results are returned. -/
theorem analyze_all_layers_abort_counterexample :
    analyze_all_layers
      (fun name _ => if name = "a" then Except.error "boom" else Except.ok 1)
      [("a", [⟨1, [0, 1]⟩]), ("b", [⟨1, [0, 1]⟩])] = Except.error "boom" ∧
    (analyze_all_layers
      (fun name _ => if name = "a" then Except.error "boom" else Except.ok 1)
      [("a", [⟨1, [0, 1]⟩]), ("b", [⟨1, [0, 1]⟩])]).isOk = false :=
  ⟨rfl, rfl⟩

/-- C4: evaluation at the failing input.  The pass-through branch of
_quantize_weights tests len(w.shape) == 0, i.e. a zero-dimensional scalar,
although its own comment labels it as the bias case; a Keras bias is a
one-dimensional vector, so it is NOT returned identically: the bias
[0, 1, 2] quantized at 1 bit comes back with its middle element zeroed —
the float program returns exactly [0.0, 0.0, 2.0] — and its first two
dequantized values are the exact zeros asserted below (0·scale = 0 and
0/scale + w_min = 0 are exact in float32 as well), so both conjuncts hold
of the real program. -/
theorem quantize_weights_bias_is_quantized :
    quantize_weights [⟨1, [0, 1, 2]⟩] 1 ≠ [⟨1, [0, 1, 2]⟩] ∧
    (quantDequant [0, 1, 2] 1).take 2 = [0, 0] := by
  have heval : quantDequant [0, 1, 2] 1 = [0, 0, 200000001/100000000] := by
    norm_num [quantDequant, quantCodes, quantScale, listMin, listMax,
      min_def, max_def, eps, roundHalfEven, Int.fract, -Int.self_sub_floor]
  have hw : quantize_weights [⟨1, [0, 1, 2]⟩] 1 = [⟨1, quantDequant [0, 1, 2] 1⟩] := by
    simp [quantize_weights]
  constructor
  · rw [hw, heval]
    intro hc
    simp only [List.cons.injEq, NpTensor.mk.injEq, and_true, true_and] at hc
    norm_num at hc
  · rw [heval]
    rfl

theorem mem_zip_map {β : Type} (g : ℚ → β) (l : List ℚ) :
    ∀ p ∈ l.zip (l.map g), p.2 = g p.1 ∧ p.1 ∈ l := by
  induction l with
  | nil => intro p hp; cases hp
  | cons a t ih =>
      intro p hp
      rcases List.mem_cons.mp hp with h | h
      · rw [h]
        exact ⟨rfl, List.mem_cons_self a t⟩
      · rcases ih p h with ⟨h1, h2⟩
        exact ⟨h1, List.mem_cons_of_mem a h2⟩

theorem quantDequant_eq_map (xs : List ℚ) (bits : ℕ) :
    quantDequant xs bits = xs.map
      (fun x => (roundHalfEven ((x - listMin xs) * quantScale xs bits) : ℚ) /
        quantScale xs bits + listMin xs) := by
  unfold quantDequant quantCodes
  rw [List.map_map]
  rfl

theorem two_pow_sub_one_pos {b : ℕ} (hb : 1 ≤ b) : 0 < (2:ℚ) ^ b - 1 := by
  have h2 : (2:ℚ) ^ 1 ≤ (2:ℚ) ^ b := pow_le_pow_right₀ (by norm_num) hb
  simp at h2
  linarith

theorem quantScale_pos (xs : List ℚ) (bits : ℕ) (hne : xs ≠ []) (hb : 1 ≤ bits) :
    0 < quantScale xs bits := by
  unfold quantScale
  apply div_pos (two_pow_sub_one_pos hb)
  have hmm := listMin_le_listMax hne
  have : (0:ℚ) < eps := by norm_num [eps]
  linarith

theorem quantDequant_err_le (xs : List ℚ) (bits : ℕ) (hne : xs ≠ []) (hb : 1 ≤ bits) :
    ∀ p ∈ xs.zip (quantDequant xs bits),
      |p.2 - p.1| ≤ (listMax xs - listMin xs + eps) / (2 * ((2:ℚ) ^ bits - 1)) := by
  intro p hp
  rw [quantDequant_eq_map] at hp
  rcases mem_zip_map _ xs p hp with ⟨hval, hmem⟩
  have hs : 0 < quantScale xs bits := quantScale_pos xs bits hne hb
  have hs0 : quantScale xs bits ≠ 0 := ne_of_gt hs
  set u := (p.1 - listMin xs) * quantScale xs bits with hu
  have hdiff : p.2 - p.1 = ((roundHalfEven u : ℚ) - u) / quantScale xs bits := by
    rw [hval]
    field_simp
    ring
  rw [hdiff, abs_div, abs_of_pos hs]
  have hround : |(roundHalfEven u : ℚ) - u| ≤ 1/2 := abs_roundHalfEven_sub_le u
  have hstep : (1/2) / quantScale xs bits =
      (listMax xs - listMin xs + eps) / (2 * ((2:ℚ) ^ bits - 1)) := by
    unfold quantScale
    have hp2 : ((2:ℚ) ^ bits - 1) ≠ 0 := ne_of_gt (two_pow_sub_one_pos hb)
    have hden : listMax xs - listMin xs + eps ≠ 0 := by
      have hmm := listMin_le_listMax hne
      have : (0:ℚ) < eps := by norm_num [eps]
      linarith
    field_simp
  rw [← hstep]
  exact (div_le_div_iff_of_pos_right hs).mpr hround

/-- C5 (amended): for bit-widths b1 < b2 the guaranteed per-element error
bound of the uniform quantizer — half a quantization step, (max − min +
1e-8) / (2·(2^b − 1)) — does hold at each width and is strictly smaller at
b2 than at b1; the measured mean-squared error itself, however, is not
monotone (see the counterexample). -/
theorem quantDequant_err_bound_antitone (xs : List ℚ) (b1 b2 : ℕ)
    (hne : xs ≠ []) (hb1 : 1 ≤ b1) (hlt : b1 < b2) :
    (∀ p ∈ xs.zip (quantDequant xs b1),
      |p.2 - p.1| ≤ (listMax xs - listMin xs + eps) / (2 * ((2:ℚ) ^ b1 - 1))) ∧
    (∀ p ∈ xs.zip (quantDequant xs b2),
      |p.2 - p.1| ≤ (listMax xs - listMin xs + eps) / (2 * ((2:ℚ) ^ b2 - 1))) ∧
    (listMax xs - listMin xs + eps) / (2 * ((2:ℚ) ^ b2 - 1)) <
      (listMax xs - listMin xs + eps) / (2 * ((2:ℚ) ^ b1 - 1)) := by
  refine ⟨quantDequant_err_le xs b1 hne hb1,
          quantDequant_err_le xs b2 hne (by omega), ?_⟩
  have hnum : 0 < listMax xs - listMin xs + eps := by
    have hmm := listMin_le_listMax hne
    have : (0:ℚ) < eps := by norm_num [eps]
    linarith
  have hd1 : 0 < 2 * ((2:ℚ) ^ b1 - 1) := by
    have := two_pow_sub_one_pos hb1
    linarith
  have hd12 : 2 * ((2:ℚ) ^ b1 - 1) < 2 * ((2:ℚ) ^ b2 - 1) := by
    have hpow : (2:ℚ) ^ b1 < (2:ℚ) ^ b2 := by
      apply pow_lt_pow_right₀ (by norm_num) hlt
    linarith
  exact div_lt_div_of_pos_left hnum hd1 hd12

/-- C5 witness: the two-element tensor [0, 1] at widths 1 < 2. -/
theorem quantDequant_err_bound_antitone_witness :
    (([0, 1] : List ℚ) ≠ [] ∧ 1 ≤ 1 ∧ 1 < 2) ∧
    ((∀ p ∈ ([0, 1] : List ℚ).zip (quantDequant [0, 1] 1),
      |p.2 - p.1| ≤ (listMax [0, 1] - listMin [0, 1] + eps) / (2 * ((2:ℚ) ^ (1:ℕ) - 1))) ∧
    (∀ p ∈ ([0, 1] : List ℚ).zip (quantDequant [0, 1] 2),
      |p.2 - p.1| ≤ (listMax [0, 1] - listMin [0, 1] + eps) / (2 * ((2:ℚ) ^ (2:ℕ) - 1))) ∧
    (listMax [0, 1] - listMin [0, 1] + eps) / (2 * ((2:ℚ) ^ (2:ℕ) - 1)) <
      (listMax [0, 1] - listMin [0, 1] + eps) / (2 * ((2:ℚ) ^ (1:ℕ) - 1))) :=
  ⟨⟨by simp, le_refl 1, by omega⟩,
    quantDequant_err_bound_antitone [0, 1] 1 2 (by simp) (le_refl 1) (by omega)⟩

/-- C5 counterexample: the claimed monotonicity of the mean-squared
dequantization error fails.  For the tensor [0, 1, 1/3] the MSE at 3 bits
is strictly LARGER than at 2 bits (the element 1/3 sits almost exactly on a
2-bit grid point but mid-gap for the 3-bit grid), refuting MSE(b2) ≤
MSE(b1) for b1 = 2 < b2 = 3. -/
theorem mse_not_monotone_counterexample :
    mse [0, 1, 1/3] (quantDequant [0, 1, 1/3] 2) <
      mse [0, 1, 1/3] (quantDequant [0, 1, 1/3] 3) := by
  norm_num [mse, quantDequant, quantCodes, quantScale, listMin, listMax, min_def, max_def,
    eps, roundHalfEven, Int.fract, -Int.self_sub_floor]

/-- C6 (amended): the reported compression ratio is exactly
(originalBitWidth × elementCount) / (indexBitWidth × elementCount + k ×
originalBitWidth) with originalBitWidth = 32 and indexBitWidth = ⌈log2 k⌉
(characterized here as the least exponent j with k ≤ 2^j).  The concrete
value for k = 16 on 512 weights, however, is 16384 / 2560 = 6.4, not the
≈ 5.33 the claim quotes. -/
theorem compressionRatio_formula (size k : ℕ) (_hk : 1 ≤ k) :
    (k ≤ 2 ^ indexBits k ∧ ∀ j, k ≤ 2 ^ j → indexBits k ≤ j) ∧
    compressionRatio size k =
      (32 * (size : ℚ)) / ((size : ℚ) * (indexBits k : ℚ) + 32 * (k : ℚ)) := by
  constructor
  · constructor
    · exact (Nat.le_pow_iff_clog_le (by norm_num)).mpr (le_refl (indexBits k))
    · intro j hj
      exact (Nat.le_pow_iff_clog_le (by norm_num)).mp hj
  · unfold compressionRatio
    push_cast
    ring_nf

/-- C6 witness: the formula instantiated at 512 weights and k = 16. -/
theorem compressionRatio_formula_witness :
    (1 ≤ 16) ∧
    ((16 ≤ 2 ^ indexBits 16 ∧ ∀ j, 16 ≤ 2 ^ j → indexBits 16 ≤ j) ∧
    compressionRatio 512 16 =
      (32 * (512 : ℚ)) / ((512 : ℚ) * (indexBits 16 : ℚ) + 32 * (16 : ℚ))) :=
  ⟨by omega, compressionRatio_formula 512 16 (by omega)⟩

/-- C6 counterexample: for numClusters = 16 on 512 weights the reported
ratio is 32/5 = 6.4; it differs from the claimed ≈ 5.33 by 1.07, so the
claimed value is wrong. -/
theorem compressionRatio_example_value :
    compressionRatio 512 16 = 32/5 ∧
    compressionRatio 512 16 - 533/100 = 107/100 := by
  have h : compressionRatio 512 16 = 32/5 := by
    norm_num [compressionRatio, indexBits, Nat.clog]
  exact ⟨h, by rw [h]; norm_num⟩

/-- C7: generate_mixed_precision_config maps each sensitivity entry (name,
n) to {weight: n, activation: max(n, 8)} on the depthwise branch ('dw' in
the name) and {weight: n, activation: n + 1} on the pointwise branch; in
particular the map [conv1_dw ↦ 8, conv1_pw ↦ 6] produces exactly the
configuration claimed. -/
theorem generate_mixed_precision_config_branches :
    (∀ (m : List (String × ℕ)) (name : String) (n : ℕ), (name, n) ∈ m →
      (isDepthwiseName name = true →
        (name, (n, max n 8)) ∈ generate_mixed_precision_config m) ∧
      (isDepthwiseName name = false →
        (name, (n, n + 1)) ∈ generate_mixed_precision_config m)) ∧
    generate_mixed_precision_config [("conv1_dw", 8), ("conv1_pw", 6)] =
      [("conv1_dw", (8, 8)), ("conv1_pw", (6, 7))] := by
  constructor
  · intro m name n hm
    constructor
    · intro hd
      have hmem := List.mem_map_of_mem
        (fun p : String × ℕ =>
          (p.1, if isDepthwiseName p.1 then (p.2, max p.2 8) else (p.2, p.2 + 1))) hm
      simpa [generate_mixed_precision_config, hd] using hmem
    · intro hd
      have hmem := List.mem_map_of_mem
        (fun p : String × ℕ =>
          (p.1, if isDepthwiseName p.1 then (p.2, max p.2 8) else (p.2, p.2 + 1))) hm
      simpa [generate_mixed_precision_config, hd] using hmem
  · decide

/-- C7 witness: the depthwise entry of the concrete sensitivity map. -/
theorem generate_mixed_precision_config_branches_witness :
    (("conv1_dw", 8) ∈ ([("conv1_dw", 8), ("conv1_pw", 6)] : List (String × ℕ))) ∧
    ((isDepthwiseName "conv1_dw" = true →
      ("conv1_dw", (8, max 8 8)) ∈
        generate_mixed_precision_config [("conv1_dw", 8), ("conv1_pw", 6)]) ∧
    (isDepthwiseName "conv1_dw" = false →
      ("conv1_dw", (8, 8 + 1)) ∈
        generate_mixed_precision_config [("conv1_dw", 8), ("conv1_pw", 6)])) :=
  ⟨by decide, generate_mixed_precision_config_branches.1
    [("conv1_dw", 8), ("conv1_pw", 6)] "conv1_dw" 8 (by decide)⟩

/-- C9 (amended): quantize_layer_weights performs no input validation of
its own; whatever failure occurs is the K-means library call's, and when
that call raises, the exception propagates and the quantizer's
codebook/index state is left unchanged (the stores of lines 217-218 come
after the clustering). -/
theorem quantize_layer_weights_error_propagates
    (km : List ℚ → ℕ → Except String (List ℕ × List ℚ))
    (k : ℕ) (st : QState) (w : List ℚ) (name : String) (e : String)
    (h : km w k = Except.error e) :
    quantize_layer_weights km k st w name = (Except.error e, st) := by
  unfold quantize_layer_weights
  rw [h]

/-- C9 witness: a clustering backend that raises. -/
theorem quantize_layer_weights_error_propagates_witness :
    ((fun (_ : List ℚ) (_ : ℕ) => (Except.error "fit failed" : Except String (List ℕ × List ℚ)))
        [0, 1] 0 = Except.error "fit failed") ∧
    quantize_layer_weights
        (fun _ _ => Except.error "fit failed") 0 ⟨[], []⟩ [0, 1] "conv1_pw" =
      (Except.error "fit failed", ⟨[], []⟩) :=
  ⟨rfl, quantize_layer_weights_error_propagates
    (fun _ _ => Except.error "fit failed") 0 ⟨[], []⟩ [0, 1] "conv1_pw" "fit failed" rfl⟩

/-- C9 counterexample: the method body contains no InvalidClusterCount /
EmptyTensor checks at all — with a clustering backend that happens to
return, a call with cluster count 0 AND an empty weight tensor still
succeeds, rather than failing with either claimed error before clustering
starts. -/
theorem quantize_layer_weights_no_validation :
    (quantize_layer_weights (fun _ _ => Except.ok ([0], [0])) 0 ⟨[], []⟩ [] "conv1_pw").1 =
      Except.ok ([0], [0]) ∧
    (quantize_layer_weights (fun _ _ => Except.ok ([0], [0])) 0 ⟨[], []⟩ [] "conv1_pw").1 ≠
      Except.error "InvalidClusterCount" ∧
    (quantize_layer_weights (fun _ _ => Except.ok ([0], [0])) 0 ⟨[], []⟩ [] "conv1_pw").1 ≠
      Except.error "EmptyTensor" := by
  have h : (quantize_layer_weights (fun _ _ => Except.ok ([0], [0])) 0 ⟨[], []⟩ [] "conv1_pw").1 =
      Except.ok ([0], [0]) := rfl
  refine ⟨h, ?_, ?_⟩ <;> (rw [h]; intro hc; exact Except.noConfusion hc)

theorem foldl_min_replicate (c : ℚ) : ∀ n : ℕ, (List.replicate n c).foldl min c = c := by
  intro n
  induction n with
  | zero => rfl
  | succ m ih =>
      rw [List.replicate_succ]
      show (List.replicate m c).foldl min (min c c) = c
      rw [min_self]
      exact ih

theorem foldl_max_replicate (c : ℚ) : ∀ n : ℕ, (List.replicate n c).foldl max c = c := by
  intro n
  induction n with
  | zero => rfl
  | succ m ih =>
      rw [List.replicate_succ]
      show (List.replicate m c).foldl max (max c c) = c
      rw [max_self]
      exact ih

theorem listMin_replicate (n : ℕ) (c : ℚ) : listMin (List.replicate (n + 1) c) = c := by
  rw [List.replicate_succ]
  show (List.replicate n c).foldl min c = c
  exact foldl_min_replicate c n

theorem listMax_replicate (n : ℕ) (c : ℚ) : listMax (List.replicate (n + 1) c) = c := by
  rw [List.replicate_succ]
  show (List.replicate n c).foldl max c = c
  exact foldl_max_replicate c n

/-- C10: the ε = 1e-8 in the scale denominator makes the division total:
for every nonempty tensor the scale is strictly positive (finite and
nonzero), including a constant tensor, where max − min = 0; and on a
constant tensor every quantized code is 0 and dequantization returns the
tensor exactly. -/
theorem quantScale_total_and_constant_exact (c : ℚ) (n bits : ℕ) (hb : 1 ≤ bits) :
    (∀ xs : List ℚ, xs ≠ [] → 0 < quantScale xs bits) ∧
    quantCodes (List.replicate (n + 1) c) bits = List.replicate (n + 1) 0 ∧
    quantDequant (List.replicate (n + 1) c) bits = List.replicate (n + 1) c := by
  have hmin := listMin_replicate n c
  have hmax := listMax_replicate n c
  have hcodes : quantCodes (List.replicate (n + 1) c) bits = List.replicate (n + 1) 0 := by
    unfold quantCodes
    rw [List.map_replicate, hmin]
    have hz : roundHalfEven ((c - c) * quantScale (List.replicate (n + 1) c) bits) = 0 := by
      apply roundHalfEven_eq_down <;> norm_num
    rw [hz]
  refine ⟨fun xs hne => quantScale_pos xs bits hne hb, hcodes, ?_⟩
  unfold quantDequant
  rw [hcodes, List.map_replicate, hmin]
  norm_num

/-- C10 witness: the constant tensor [5, 5, 5] at 4 bits. -/
theorem quantScale_total_and_constant_exact_witness :
    (1 ≤ 4) ∧
    ((∀ xs : List ℚ, xs ≠ [] → 0 < quantScale xs 4) ∧
    quantCodes (List.replicate (2 + 1) (5:ℚ)) 4 = List.replicate (2 + 1) 0 ∧
    quantDequant (List.replicate (2 + 1) (5:ℚ)) 4 = List.replicate (2 + 1) (5:ℚ)) :=
  ⟨by omega, quantScale_total_and_constant_exact 5 2 4 (by omega)⟩

/-- C8 (amended): with the log transform abstracted as any monotone lg with
lg 1 = 0 (true of log2), every code produced for outBits ≤ 8 lies in
[0, 2^outBits − 1], and the output coincides with the spec's clipped form —
the code never clips, but the values provably never leave the range, and the
uint8 cast is the identity there.  Moreover, whenever the transformed
maximum exceeds the tiny threshold (2·(2^outBits − 1) − 1)·ε (for the
claimed scenario max = 100, outBits = 8 the left side is ≈ 5.1e-6 while
log2 101 ≈ 6.66), the code at a maximal element is exactly 2^outBits − 1,
i.e. 255 at 8 bits.  For outBits > 8 the uint8 cast wraps (see the
counterexample). -/
theorem logarithmic_quantize_activation_range (lg : ℚ → ℚ) (xs : List ℚ) (b : ℕ)
    (hmono : Monotone lg) (h0 : lg 1 = 0) (hne : xs ≠ []) (hb : b ≤ 8) :
    (∀ c ∈ logarithmic_quantize_activation lg xs b, 0 ≤ c ∧ c ≤ 2 ^ b - 1) ∧
    logarithmic_quantize_activation lg xs b = logQuantizeClipForm lg xs b ∧
    ((2 * ((2:ℚ) ^ b - 1) - 1) * eps < lg (listMax (xs.map (fun x => max x 0)) + 1) →
      ∀ p ∈ (xs.map (fun x => max x 0)).zip (logarithmic_quantize_activation lg xs b),
        p.1 = listMax (xs.map (fun x => max x 0)) → p.2 = 2 ^ b - 1) := by
  have hepsQ : (0:ℚ) < eps := by norm_num [eps]
  have hdefq : logarithmic_quantize_activation lg xs b =
      (xs.map (fun x => max x 0)).map (fun x =>
        (roundHalfEven (lg (x + 1) *
          (((2 : ℚ) ^ b - 1) /
            (lg (listMax (xs.map (fun x => max x 0)) + 1) + eps)))).emod 256) := rfl
  have hdefclip : logQuantizeClipForm lg xs b =
      (xs.map (fun x => max x 0)).map (fun x =>
        max 0 (min (roundHalfEven (lg (x + 1) *
          (((2 : ℚ) ^ b - 1) /
            (lg (listMax (xs.map (fun x => max x 0)) + 1) + eps)))) (2 ^ b - 1))) := rfl
  have hactne : xs.map (fun x => max x 0) ≠ [] := by
    intro h
    exact hne (List.map_eq_nil_iff.mp h)
  have hact_nonneg : ∀ x ∈ xs.map (fun x => max x 0), 0 ≤ x := by
    intro x hx
    rcases List.mem_map.mp hx with ⟨y, _, hy⟩
    rw [← hy]
    exact le_max_right y 0
  have hmaxT0 : 0 ≤ listMax (xs.map (fun x => max x 0)) := by
    rcases List.exists_mem_of_ne_nil _ hactne with ⟨y, hy⟩
    exact le_trans (hact_nonneg y hy) (le_listMax_of_mem hy)
  have hL0 : 0 ≤ lg (listMax (xs.map (fun x => max x 0)) + 1) := by
    have hm := hmono (show (1:ℚ) ≤ listMax (xs.map (fun x => max x 0)) + 1 by linarith)
    rw [h0] at hm
    exact hm
  have hden : 0 < lg (listMax (xs.map (fun x => max x 0)) + 1) + eps := by linarith
  have hN0 : (0:ℚ) ≤ (2:ℚ) ^ b - 1 := by
    have h1 : (1:ℚ) ≤ (2:ℚ) ^ b := one_le_pow₀ (by norm_num)
    linarith
  have hs0 : 0 ≤ ((2 : ℚ) ^ b - 1) /
      (lg (listMax (xs.map (fun x => max x 0)) + 1) + eps) :=
    div_nonneg hN0 hden.le
  have key : ∀ x ∈ xs.map (fun x => max x 0),
      0 ≤ roundHalfEven (lg (x + 1) *
        (((2 : ℚ) ^ b - 1) / (lg (listMax (xs.map (fun x => max x 0)) + 1) + eps))) ∧
      roundHalfEven (lg (x + 1) *
        (((2 : ℚ) ^ b - 1) / (lg (listMax (xs.map (fun x => max x 0)) + 1) + eps))) ≤
        2 ^ b - 1 := by
    intro x hx
    have hx0 : 0 ≤ x := hact_nonneg x hx
    have ht0 : 0 ≤ lg (x + 1) := by
      have hm := hmono (show (1:ℚ) ≤ x + 1 by linarith)
      rw [h0] at hm
      exact hm
    have htL : lg (x + 1) ≤ lg (listMax (xs.map (fun x => max x 0)) + 1) := by
      apply hmono
      have := le_listMax_of_mem hx
      linarith
    have hu0 : 0 ≤ lg (x + 1) *
        (((2 : ℚ) ^ b - 1) / (lg (listMax (xs.map (fun x => max x 0)) + 1) + eps)) :=
      mul_nonneg ht0 hs0
    have huN : lg (x + 1) *
        (((2 : ℚ) ^ b - 1) / (lg (listMax (xs.map (fun x => max x 0)) + 1) + eps)) ≤
        (2:ℚ) ^ b - 1 := by
      have h1 : lg (x + 1) *
          (((2 : ℚ) ^ b - 1) / (lg (listMax (xs.map (fun x => max x 0)) + 1) + eps)) ≤
          lg (listMax (xs.map (fun x => max x 0)) + 1) *
          (((2 : ℚ) ^ b - 1) / (lg (listMax (xs.map (fun x => max x 0)) + 1) + eps)) :=
        mul_le_mul_of_nonneg_right htL hs0
      have h2 : lg (listMax (xs.map (fun x => max x 0)) + 1) *
          (((2 : ℚ) ^ b - 1) / (lg (listMax (xs.map (fun x => max x 0)) + 1) + eps)) ≤
          (2:ℚ) ^ b - 1 := by
        rw [show lg (listMax (xs.map (fun x => max x 0)) + 1) *
            (((2 : ℚ) ^ b - 1) / (lg (listMax (xs.map (fun x => max x 0)) + 1) + eps)) =
            lg (listMax (xs.map (fun x => max x 0)) + 1) * ((2 : ℚ) ^ b - 1) /
              (lg (listMax (xs.map (fun x => max x 0)) + 1) + eps) from by ring]
        rw [div_le_iff₀ hden]
        nlinarith [mul_nonneg hN0 hepsQ.le]
      linarith
    constructor
    · have hlo := le_roundHalfEven (lg (x + 1) *
        (((2 : ℚ) ^ b - 1) / (lg (listMax (xs.map (fun x => max x 0)) + 1) + eps)))
      have hc : (-1 : ℚ) < (roundHalfEven (lg (x + 1) *
        (((2 : ℚ) ^ b - 1) / (lg (listMax (xs.map (fun x => max x 0)) + 1) + eps))) : ℚ) := by
        linarith
      have hz : (-1 : ℤ) < roundHalfEven (lg (x + 1) *
        (((2 : ℚ) ^ b - 1) / (lg (listMax (xs.map (fun x => max x 0)) + 1) + eps))) := by
        exact_mod_cast hc
      omega
    · have hhi := roundHalfEven_le (lg (x + 1) *
        (((2 : ℚ) ^ b - 1) / (lg (listMax (xs.map (fun x => max x 0)) + 1) + eps)))
      have hc : (roundHalfEven (lg (x + 1) *
        (((2 : ℚ) ^ b - 1) / (lg (listMax (xs.map (fun x => max x 0)) + 1) + eps))) : ℚ) <
          ((2 ^ b - 1 : ℤ) : ℚ) + 1 := by
        push_cast
        linarith
      have hz : roundHalfEven (lg (x + 1) *
        (((2 : ℚ) ^ b - 1) / (lg (listMax (xs.map (fun x => max x 0)) + 1) + eps))) <
          (2 ^ b - 1 : ℤ) + 1 := by
        exact_mod_cast hc
      omega
  have hNle : (2 ^ b - 1 : ℤ) ≤ 255 := by
    have h1 : (2:ℤ) ^ b ≤ 2 ^ 8 := pow_le_pow_right₀ (by norm_num) hb
    omega
  have hemod : ∀ x ∈ xs.map (fun x => max x 0),
      (roundHalfEven (lg (x + 1) *
        (((2 : ℚ) ^ b - 1) /
          (lg (listMax (xs.map (fun x => max x 0)) + 1) + eps)))).emod 256 =
      roundHalfEven (lg (x + 1) *
        (((2 : ℚ) ^ b - 1) /
          (lg (listMax (xs.map (fun x => max x 0)) + 1) + eps))) := by
    intro x hx
    rcases key x hx with ⟨hlo, hhi⟩
    exact Int.emod_eq_of_lt hlo (by omega)
  refine ⟨?_, ?_, ?_⟩
  · intro c hc
    rw [hdefq] at hc
    rcases List.mem_map.mp hc with ⟨x, hx, hfx⟩
    rw [← hfx, hemod x hx]
    exact key x hx
  · rw [hdefq, hdefclip]
    apply List.map_congr_left
    intro x hx
    rcases key x hx with ⟨hlo, hhi⟩
    rw [hemod x hx, min_eq_left hhi, max_eq_right hlo]
  · intro hgap p hp hpmax
    rw [hdefq] at hp
    rcases mem_zip_map _ _ p hp with ⟨hval, hmem⟩
    rcases key p.1 hmem with ⟨hlo, hhi⟩
    have hulb : ((2:ℚ) ^ b - 1) - 1/2 < lg (p.1 + 1) *
        (((2 : ℚ) ^ b - 1) / (lg (listMax (xs.map (fun x => max x 0)) + 1) + eps)) := by
      rw [hpmax]
      rw [show lg (listMax (xs.map (fun x => max x 0)) + 1) *
          (((2 : ℚ) ^ b - 1) / (lg (listMax (xs.map (fun x => max x 0)) + 1) + eps)) =
          lg (listMax (xs.map (fun x => max x 0)) + 1) * ((2 : ℚ) ^ b - 1) /
            (lg (listMax (xs.map (fun x => max x 0)) + 1) + eps) from by ring]
      rw [lt_div_iff₀ hden]
      nlinarith [hgap, hepsQ]
    have hrlb := le_roundHalfEven (lg (p.1 + 1) *
      (((2 : ℚ) ^ b - 1) / (lg (listMax (xs.map (fun x => max x 0)) + 1) + eps)))
    have hcast : (roundHalfEven (lg (p.1 + 1) *
        (((2 : ℚ) ^ b - 1) / (lg (listMax (xs.map (fun x => max x 0)) + 1) + eps))) : ℚ) >
        ((2 ^ b - 1 : ℤ) : ℚ) - 1 := by
      push_cast
      linarith
    have hzgt : roundHalfEven (lg (p.1 + 1) *
        (((2 : ℚ) ^ b - 1) / (lg (listMax (xs.map (fun x => max x 0)) + 1) + eps))) >
        (2 ^ b - 1 : ℤ) - 1 := by
      exact_mod_cast hcast
    have hzeq : roundHalfEven (lg (p.1 + 1) *
        (((2 : ℚ) ^ b - 1) / (lg (listMax (xs.map (fun x => max x 0)) + 1) + eps))) =
        (2 ^ b - 1 : ℤ) := by
      omega
    rw [hval, hemod p.1 hmem, hzeq]

/-- C8 witness: a concrete application with the constant-zero transform
(monotone, value 0 at 1) on the tensor [0, 100] at 8 bits. -/
theorem logarithmic_quantize_activation_range_witness :
    (Monotone (fun _ : ℚ => (0:ℚ)) ∧ (fun _ : ℚ => (0:ℚ)) 1 = 0 ∧
      ([0, 100] : List ℚ) ≠ [] ∧ 8 ≤ 8) ∧
    ((∀ c ∈ logarithmic_quantize_activation (fun _ => 0) [0, 100] 8,
        0 ≤ c ∧ c ≤ 2 ^ 8 - 1) ∧
    logarithmic_quantize_activation (fun _ => 0) [0, 100] 8 =
      logQuantizeClipForm (fun _ => 0) [0, 100] 8 ∧
    ((2 * ((2:ℚ) ^ 8 - 1) - 1) * eps <
        (fun _ : ℚ => (0:ℚ)) (listMax (([0, 100] : List ℚ).map (fun x => max x 0)) + 1) →
      ∀ p ∈ (([0, 100] : List ℚ).map (fun x => max x 0)).zip
          (logarithmic_quantize_activation (fun _ => 0) [0, 100] 8),
        p.1 = listMax (([0, 100] : List ℚ).map (fun x => max x 0)) → p.2 = 2 ^ 8 - 1)) :=
  ⟨⟨monotone_const, rfl, by simp, le_refl 8⟩,
    logarithmic_quantize_activation_range (fun _ => 0) [0, 100] 8
      monotone_const rfl (by simp) (le_refl 8)⟩

/-- C8 counterexample: the code performs no clip — it casts to uint8.  The
stand-in transform ratLog2Floor agrees with the exact real log2 at every
point it is applied to here (1 and 4, since the tensor is [0, 3]), so the
real code behaves identically on this input: at outBits = 16 the rounded
code at the maximum element is 65535, the uint8 cast wraps it to 255, while
the claimed clip(round(t·scale), 0, 2^outBits − 1) would give 65535. -/
theorem logarithmic_quantize_activation_uint8_wrap :
    logarithmic_quantize_activation ratLog2Floor [0, 3] 16 = [0, 255] ∧
    logQuantizeClipForm ratLog2Floor [0, 3] 16 = [0, 65535] ∧
    logarithmic_quantize_activation ratLog2Floor [0, 3] 16 ≠
      logQuantizeClipForm ratLog2Floor [0, 3] 16 := by
  have e1 : ratLog2Floor 1 = 0 := by
    have hf : (⌊(1:ℚ)⌋).toNat = 1 := by norm_num
    unfold ratLog2Floor
    rw [hf]
    norm_num [natLog2Go]
  have e4 : ratLog2Floor 4 = 2 := by
    have hf : (⌊(4:ℚ)⌋).toNat = 4 := by
      norm_num
      rfl
    unfold ratLog2Floor
    rw [hf]
    norm_num [natLog2Go]
  have h1 : logarithmic_quantize_activation ratLog2Floor [0, 3] 16 = [0, 255] := by
    norm_num [logarithmic_quantize_activation, listMax, max_def, eps, e1, e4,
      roundHalfEven, Int.fract, -Int.self_sub_floor]
  have h2 : logQuantizeClipForm ratLog2Floor [0, 3] 16 = [0, 65535] := by
    norm_num [logQuantizeClipForm, listMax, max_def, eps, e1, e4,
      roundHalfEven, Int.fract, -Int.self_sub_floor]
  refine ⟨h1, h2, ?_⟩
  rw [h1, h2]
  intro hc
  simp at hc

end MobileNetQuant
